import Mathlib

/-!
Verification of the `tlsn` repository core against its specification.

Part 1 embeds the transcript range-finding operation
(`find_ranges`, `src/tlsn/examples/twitter_dm.rs:235-262`) as executable
Lean functions over byte sequences (`List Nat`), keeping the `u32`
narrowing casts (`% 2^32`) and modelling the `windows(0)` panic as `none`.

Part 2 embeds the garbling-protocol role signatures and error type
(`src/mpc/mpc-aio/src/protocol/garble/mod.rs`).
-/

namespace Tlsn

/-- Modulus of Rust's `u32` type, `2^32`. -/
def U32 : Nat := 4294967296

/-- The effect of Rust's `as u32` narrowing cast on a `usize` value. -/
def u32cast (n : Nat) : Nat := n % U32

/-- Holds when `s` occurs as a contiguous subsequence of `seq` at byte
offset `i`. -/
def occursAt (seq s : List Nat) (i : Nat) : Prop :=
  i + s.length ≤ seq.length ∧ (seq.drop i).take s.length = s

instance (seq s : List Nat) (i : Nat) : Decidable (occursAt seq s i) :=
  inferInstanceAs (Decidable (_ ∧ _))

/-- The inner loop of `find_ranges` for one secret `s`
(`twitter_dm.rs:238-242`): iterate over the windows of `seq` of width
`s.len()` with their indices, and for each matching window push the range
`idx as u32 .. (idx + w.len()) as u32`. `seq.windows(n)` visits indices
`0, ..., seq.len() - n` when `1 ≤ n ≤ seq.len()` and nothing otherwise
(the `n = 0` panic is handled in `find_ranges`). -/
def occurrences (seq s : List Nat) : List (Nat × Nat) :=
  (List.range (seq.length + 1 - s.length)).filterMap fun idx =>
    if (seq.drop idx).take s.length = s then
      some (u32cast idx, u32cast (idx + s.length))
    else none

/-- The full private-range collection loop of `find_ranges`
(`twitter_dm.rs:236-243`): secrets are processed in order, occurrences of
each in window order. -/
def allOccurrences (seq : List Nat) (sub_seq : List (List Nat)) : List (Nat × Nat) :=
  sub_seq.flatMap (occurrences seq)

/-- The gap-filling loop of `find_ranges` (`twitter_dm.rs:249-255`):
walk the sorted private ranges keeping `last_end`, pushing a public range
`last_end..r.start` whenever `r.start > last_end`, and finish with the
final value of `last_end`. -/
def publicLoop : List (Nat × Nat) → Nat → List (Nat × Nat) × Nat
  | [], last_end => ([], last_end)
  | r :: rest, last_end =>
    let tail := publicLoop rest r.2
    (if last_end < r.1 then (last_end, r.1) :: tail.1 else tail.1, tail.2)

/-- The sort key of `sort_by_key(|r| r.start)` (`twitter_dm.rs:246`):
compare ranges by start offset. -/
def startLE (r r' : Nat × Nat) : Prop := r.1 ≤ r'.1

instance : DecidableRel startLE := fun r r' =>
  inferInstanceAs (Decidable (r.1 ≤ r'.1))

instance : IsTotal (Nat × Nat) startLE := ⟨fun r r' => Nat.le_total r.1 r'.1⟩

instance : IsTrans (Nat × Nat) startLE := ⟨fun _ _ _ => Nat.le_trans⟩

/-- Embedding of `find_ranges` (`twitter_dm.rs:235-262`). A range `start..end` is the
pair `(start, end)` of `u32` values. `seq.windows(s.len())` panics when
`s.len() = 0`, which we model as `none`; otherwise the result is `some
(public_ranges, private_ranges)`. The private list is returned in
collection order; `sort_by_key(|r| r.start)` is a stable sort by start
offset, modelled by (stable) insertion sort, and is applied only to the
copy driving the gap-filling loop. -/
def find_ranges (seq : List Nat) (sub_seq : List (List Nat)) :
    Option (List (Nat × Nat) × List (Nat × Nat)) :=
  if sub_seq.any (fun s => s.isEmpty) then none
  else
    let private_ranges := allOccurrences seq sub_seq
    let sorted_ranges := private_ranges.insertionSort startLE
    let filled := publicLoop sorted_ranges 0
    let public_ranges :=
      filled.1 ++
        if filled.2 < u32cast seq.length then [(filled.2, u32cast seq.length)] else []
    some (public_ranges, private_ranges)

/-- The idealised range-finding computation with exact (unbounded) byte
offsets: `find_ranges` with every `as u32` cast removed. Used to state
that the code's offsets agree with the exact ones below `2^32`. -/
def occurrencesNat (seq s : List Nat) : List (Nat × Nat) :=
  (List.range (seq.length + 1 - s.length)).filterMap fun idx =>
    if (seq.drop idx).take s.length = s then some (idx, idx + s.length) else none

/-- Variant of `find_ranges` with exact `Nat` offsets (no `u32` narrowing). -/
def find_rangesNat (seq : List Nat) (sub_seq : List (List Nat)) :
    Option (List (Nat × Nat) × List (Nat × Nat)) :=
  if sub_seq.any (fun s => s.isEmpty) then none
  else
    let private_ranges := sub_seq.flatMap (occurrencesNat seq)
    let sorted_ranges := private_ranges.insertionSort startLE
    let filled := publicLoop sorted_ranges 0
    let public_ranges :=
      filled.1 ++ if filled.2 < seq.length then [(filled.2, seq.length)] else []
    some (public_ranges, private_ranges)

/-- The half-open range `(r.1, r.2)` contains offset `i`. -/
def covers (r : Nat × Nat) (i : Nat) : Bool :=
  decide (r.1 ≤ i) && decide (i < r.2)

/-- How many ranges of `rs` contain offset `i`. -/
def coverCount (rs : List (Nat × Nat)) (i : Nat) : Nat :=
  rs.countP fun r => covers r i

/-- The ranges `rs` exactly tile `[0, len)`: every offset below `len` lies
in exactly one range and no offset at or above `len` lies in any. -/
def exactTiling (len : Nat) (rs : List (Nat × Nat)) : Prop :=
  ∀ i : Nat, coverCount rs i = if i < len then 1 else 0

/-- Two half-open ranges are disjoint. -/
def RangesDisjoint (r r' : Nat × Nat) : Prop :=
  r.2 ≤ r'.1 ∨ r'.2 ≤ r.1

instance : DecidableRel RangesDisjoint := fun r r' =>
  inferInstanceAs (Decidable (r.2 ≤ r'.1 ∨ r'.2 ≤ r.1))

theorem RangesDisjoint.symm {r r' : Nat × Nat} (h : RangesDisjoint r r') :
    RangesDisjoint r' r := h.elim .inr .inl

/-! ### Basic lemmas about the range-finding embedding -/

theorem u32cast_eq_of_lt {n : Nat} (h : n < U32) : u32cast n = n :=
  Nat.mod_eq_of_lt h

theorem covers_iff {r : Nat × Nat} {i : Nat} :
    covers r i = true ↔ r.1 ≤ i ∧ i < r.2 := by
  simp [covers]

/-- Characterization of the matching windows: membership in `occurrences`,
with the `u32` casts still present. -/
theorem mem_occurrences_cast {seq s : List Nat} {r : Nat × Nat} :
    r ∈ occurrences seq s ↔
      ∃ idx, r = (u32cast idx, u32cast (idx + s.length)) ∧ occursAt seq s idx := by
  unfold occurrences
  rw [List.mem_filterMap]
  constructor
  · rintro ⟨idx, hidx, hf⟩
    rw [List.mem_range] at hidx
    by_cases hc : (seq.drop idx).take s.length = s
    · rw [if_pos hc] at hf
      refine ⟨idx, (Option.some_inj.1 hf).symm, ?_, hc⟩
      omega
    · rw [if_neg hc] at hf
      exact absurd hf (by simp)
  · rintro ⟨idx, rfl, hle, htake⟩
    exact ⟨idx, List.mem_range.2 (by omega), by rw [if_pos htake]⟩

/-- Characterization of `occurrences` when the sequence is shorter than
`2^32`: the recorded ranges are exactly the occurrence ranges. -/
theorem mem_occurrences {seq s : List Nat} {r : Nat × Nat}
    (hlen : seq.length < U32) :
    r ∈ occurrences seq s ↔
      ∃ idx, r = (idx, idx + s.length) ∧ occursAt seq s idx := by
  rw [mem_occurrences_cast]
  constructor
  · rintro ⟨idx, rfl, hocc⟩
    have h1 : idx + s.length < U32 := by
      have := hocc.1; omega
    exact ⟨idx, by rw [u32cast_eq_of_lt (by omega), u32cast_eq_of_lt h1], hocc⟩
  · rintro ⟨idx, rfl, hocc⟩
    have h1 : idx + s.length < U32 := by
      have := hocc.1; omega
    exact ⟨idx, by rw [u32cast_eq_of_lt (by omega), u32cast_eq_of_lt h1], hocc⟩

/-- Every recorded occurrence range of a non-empty secret is non-degenerate
and ends within the sequence (below `2^32`). -/
theorem allOccurrences_bounds {seq : List Nat} {sub_seq : List (List Nat)}
    (hlen : seq.length < U32) (hne : ∀ s ∈ sub_seq, s ≠ []) :
    ∀ r ∈ allOccurrences seq sub_seq, r.1 < r.2 ∧ r.2 ≤ seq.length := by
  intro r hr
  rcases List.mem_flatMap.1 hr with ⟨s, hs, hmem⟩
  rcases (mem_occurrences hlen).1 hmem with ⟨idx, rfl, hocc⟩
  have hpos : 0 < s.length := List.length_pos.2 (hne s hs)
  exact ⟨by simpa using by omega, by simpa using hocc.1⟩

/-- Unfolding of `find_ranges` when every secret is non-empty. -/
theorem find_ranges_some (seq : List Nat) {sub_seq : List (List Nat)}
    (hne : ∀ s ∈ sub_seq, s ≠ []) :
    find_ranges seq sub_seq =
      some
        ((publicLoop ((allOccurrences seq sub_seq).insertionSort startLE) 0).1 ++
            (if (publicLoop ((allOccurrences seq sub_seq).insertionSort startLE) 0).2 <
                u32cast seq.length then
              [((publicLoop ((allOccurrences seq sub_seq).insertionSort startLE) 0).2,
                  u32cast seq.length)]
            else []),
          allOccurrences seq sub_seq) := by
  have h : ¬ sub_seq.any (fun s => s.isEmpty) = true := by
    rw [List.any_eq_true]
    rintro ⟨s, hs, hemp⟩
    exact hne s hs (List.isEmpty_iff.1 hemp)
  rw [find_ranges, if_neg h]

/-! ### The gap-filling loop -/

theorem publicLoop_nil (b : Nat) : publicLoop [] b = ([], b) := rfl

theorem publicLoop_cons (r : Nat × Nat) (rest : List (Nat × Nat)) (b : Nat) :
    publicLoop (r :: rest) b =
      (if b < r.1 then (b, r.1) :: (publicLoop rest r.2).1 else (publicLoop rest r.2).1,
        (publicLoop rest r.2).2) := rfl

/-- Final `last_end` of the gap-filling loop: either the initial value (no
private ranges) or the end of one of the private ranges. -/
theorem publicLoop_final :
    ∀ (l : List (Nat × Nat)) (b : Nat),
      (publicLoop l b).2 = b ∨ ∃ r ∈ l, (publicLoop l b).2 = r.2
  | [], _ => Or.inl rfl
  | r :: rest, b => by
    rw [publicLoop_cons]
    rcases publicLoop_final rest r.2 with h | ⟨r', hr', h⟩
    · exact Or.inr ⟨r, List.mem_cons_self r rest, h⟩
    · exact Or.inr ⟨r', List.mem_cons_of_mem r hr', h⟩

/-- Endpoints of the public ranges produced by the gap-filling loop come
from the initial `last_end` and the endpoints of the private ranges. -/
theorem publicLoop_mem_endpoints :
    ∀ (l : List (Nat × Nat)) (b : Nat) (p : Nat × Nat), p ∈ (publicLoop l b).1 →
      (p.1 = b ∨ ∃ r ∈ l, p.1 = r.2) ∧ (∃ r ∈ l, p.2 = r.1)
  | [], _, _, h => by rw [publicLoop_nil] at h; exact absurd h (by simp)
  | r :: rest, b, p, h => by
    rw [publicLoop_cons] at h
    by_cases hb : b < r.1
    · rw [if_pos hb] at h
      rcases List.mem_cons.1 h with rfl | h
      · exact ⟨Or.inl rfl, r, List.mem_cons_self r rest, rfl⟩
      · rcases publicLoop_mem_endpoints rest r.2 p h with ⟨h1, r', hr', h2⟩
        refine ⟨?_, r', List.mem_cons_of_mem r hr', h2⟩
        rcases h1 with h1 | ⟨r'', hr'', h1⟩
        · exact Or.inr ⟨r, List.mem_cons_self r rest, h1⟩
        · exact Or.inr ⟨r'', List.mem_cons_of_mem r hr'', h1⟩
    · rw [if_neg hb] at h
      rcases publicLoop_mem_endpoints rest r.2 p h with ⟨h1, r', hr', h2⟩
      refine ⟨?_, r', List.mem_cons_of_mem r hr', h2⟩
      rcases h1 with h1 | ⟨r'', hr'', h1⟩
      · exact Or.inr ⟨r, List.mem_cons_self r rest, h1⟩
      · exact Or.inr ⟨r'', List.mem_cons_of_mem r hr'', h1⟩

/-- Main property of the gap-filling loop: on a list of non-degenerate,
pairwise ordered-and-disjoint ranges all starting at or after `b`, the
produced public ranges together with the input ranges cover each offset of
`[b, last_end)` exactly once, and nothing outside it. -/
theorem publicLoop_tiling :
    ∀ (l : List (Nat × Nat)) (b : Nat),
      (∀ r ∈ l, b ≤ r.1) → (∀ r ∈ l, r.1 < r.2) →
      l.Pairwise (fun r r' => r.2 ≤ r'.1) →
      (∀ i, coverCount ((publicLoop l b).1 ++ l) i =
          if b ≤ i ∧ i < (publicLoop l b).2 then 1 else 0) ∧
        b ≤ (publicLoop l b).2
  | [], b, _, _, _ => by
    refine ⟨fun i => ?_, Nat.le_refl b⟩
    rw [publicLoop_nil]
    have : ¬ (b ≤ i ∧ i < b) := by omega
    simp [coverCount, this]
  | r :: rest, b, hb, hne, hord => by
    have hpair := List.pairwise_cons.1 hord
    have ihb : ∀ r' ∈ rest, r.2 ≤ r'.1 := hpair.1
    obtain ⟨ih1, ih2⟩ :=
      publicLoop_tiling rest r.2 ihb (fun r' hr' => hne r' (List.mem_cons_of_mem r hr'))
        hpair.2
    have hbr : b ≤ r.1 := hb r (List.mem_cons_self r rest)
    have hrr : r.1 < r.2 := hne r (List.mem_cons_self r rest)
    rw [publicLoop_cons]
    refine ⟨fun i => ?_, by omega⟩
    have hsum := ih1 i
    rw [coverCount, List.countP_append] at hsum
    by_cases hgap : b < r.1
    · rw [if_pos hgap]
      simp only [coverCount, List.countP_append, List.countP_cons] at *
      rcases Nat.lt_or_ge i r.1 with h1 | h1 <;>
        rcases Nat.lt_or_ge i r.2 with h2 | h2 <;>
          simp only [covers_iff, decide_eq_true_eq] at * <;>
            split_ifs at * <;> omega
    · rw [if_neg hgap]
      simp only [coverCount, List.countP_append, List.countP_cons] at *
      rcases Nat.lt_or_ge i r.1 with h1 | h1 <;>
        rcases Nat.lt_or_ge i r.2 with h2 | h2 <;>
          simp only [covers_iff, decide_eq_true_eq] at * <;>
            split_ifs at * <;> omega

/-- Sorted by start and pairwise disjoint non-degenerate ranges are in fact
ordered end-to-start. -/
theorem sorted_disjoint_chain {l : List (Nat × Nat)}
    (hsort : l.Pairwise startLE) (hdisj : l.Pairwise RangesDisjoint)
    (hne : ∀ r ∈ l, r.1 < r.2) :
    l.Pairwise fun r r' => r.2 ≤ r'.1 := by
  refine (hsort.and hdisj).imp_of_mem ?_
  intro a b ha hb hab
  rcases hab.2 with h | h
  · exact h
  · have h1 := hne a ha
    have h2 := hne b hb
    have h3 : a.1 ≤ b.1 := hab.1
    omega

/-! ### Claim C2 -/

/-- C2, counterexample: for `S = [97, 97, 97]` and `K = {[97, 97]}` (the
secret `"aa"` in `"aaa"`) the two recorded private occurrence ranges
overlap at offset 1, so the returned ranges do not tile `[0, 3)`: offset 1
is covered twice and offset 0 twice, contradicting mutual disjointness and
exactly-once coverage. -/
theorem C2_counterexample :
    find_ranges [97, 97, 97] [[97, 97]] = some ([], [(0, 2), (1, 3)]) ∧
      ¬ exactTiling 3 ([] ++ [(0, 2), (1, 3)]) := by
  refine ⟨by decide, fun h => ?_⟩
  exact absurd (h 1) (by decide)

/-- C2, amended: for every byte sequence `S` shorter than `2^32` and every
set of non-empty secrets whose recorded occurrence ranges are pairwise
disjoint (no overlapping or duplicated matches), the public and private
ranges computed by `find_ranges` together cover every offset of
`[0, len(S))` exactly once — each offset lies in exactly one range, either
private or public, never both — and no offset outside `[0, len(S))`. -/
theorem C2_exact_tiling (seq : List Nat) (sub_seq : List (List Nat))
    (hlen : seq.length < U32)
    (hne : ∀ s ∈ sub_seq, s ≠ [])
    (hdisj : (allOccurrences seq sub_seq).Pairwise RangesDisjoint) :
    ∃ pubs privs, find_ranges seq sub_seq = some (pubs, privs) ∧
      exactTiling seq.length (pubs ++ privs) := by
  have hcast : u32cast seq.length = seq.length := u32cast_eq_of_lt hlen
  have hbounds := allOccurrences_bounds hlen hne
  set privs := allOccurrences seq sub_seq with hprivs
  set sorted := privs.insertionSort startLE with hsortdef
  have hperm : sorted.Perm privs := List.perm_insertionSort startLE privs
  have hsort : sorted.Pairwise startLE := List.sorted_insertionSort startLE privs
  have hdisj' : sorted.Pairwise RangesDisjoint :=
    (hperm.pairwise_iff (fun h => h.symm)).2 hdisj
  have hbounds' : ∀ r ∈ sorted, r.1 < r.2 ∧ r.2 ≤ seq.length := fun r hr =>
    hbounds r (hperm.mem_iff.1 hr)
  have hchain := sorted_disjoint_chain hsort hdisj' fun r hr => (hbounds' r hr).1
  obtain ⟨htile, hble⟩ :=
    publicLoop_tiling sorted 0 (fun r _ => Nat.zero_le _)
      (fun r hr => (hbounds' r hr).1) hchain
  set res := publicLoop sorted 0 with hresdef
  have hfin_le : res.2 ≤ seq.length := by
    rcases publicLoop_final sorted 0 with h | ⟨r, hr, h⟩
    · rw [hresdef, h]; exact Nat.zero_le _
    · have := (hbounds' r hr).2; rw [hresdef, h]; exact this
  refine ⟨res.1 ++ (if res.2 < u32cast seq.length then [(res.2, u32cast seq.length)] else []),
      privs, find_ranges_some seq hne, ?_⟩
  intro i
  have hs := htile i
  rw [coverCount, List.countP_append] at hs
  have hpc : List.countP (fun r => covers r i) privs
      = List.countP (fun r => covers r i) sorted := (hperm.countP_eq _).symm
  rw [hcast]
  by_cases hlt : res.2 < seq.length
  · rw [if_pos hlt]
    simp only [coverCount, List.countP_append, List.countP_cons, List.countP_nil,
      covers_iff, decide_eq_true_eq] at hs hpc ⊢
    split_ifs at hs ⊢ <;> omega
  · rw [if_neg hlt]
    have hfin : res.2 = seq.length := by omega
    simp only [coverCount, List.countP_append, List.countP_cons, List.countP_nil,
      covers_iff, decide_eq_true_eq] at hs hpc ⊢
    split_ifs at hs ⊢ <;> omega

/-- C2, witness: concrete instance of the amended tiling theorem. -/
theorem C2_witness :
    ∃ pubs privs, find_ranges [7] [[7]] = some (pubs, privs) ∧
      exactTiling 1 (pubs ++ privs) :=
  C2_exact_tiling [7] [[7]] (by decide) (by decide) (by decide)

/-! ### Claim C5 -/

/-- A matching window of a non-empty secret lies entirely inside the
sequence. -/
theorem occursAt_of_take {seq s : List Nat} {i : Nat} (hs : s ≠ [])
    (h : (seq.drop i).take s.length = s) : i + s.length ≤ seq.length := by
  have hl := congrArg List.length h
  rw [List.length_take, List.length_drop] at hl
  have hpos : 0 < s.length := List.length_pos.2 hs
  rcases Nat.le_total s.length (seq.length - i) with h' | h'
  · omega
  · rw [Nat.min_eq_right h'] at hl
    omega

/-- Occurrence ranges of one non-empty secret are distinct (below `2^32`,
the start offsets differ). -/
theorem occurrences_nodup {seq s : List Nat} (hlen : seq.length < U32)
    (hs : s ≠ []) : (occurrences seq s).Nodup := by
  unfold occurrences
  refine List.Nodup.filterMap ?_ (List.nodup_range _)
  intro a a' b hb hb'
  rw [Option.mem_def] at hb hb'
  split_ifs at hb hb' with h1 h2
  have ha := occursAt_of_take hs h1
  have ha' := occursAt_of_take hs h2
  have e1 : u32cast a = a := u32cast_eq_of_lt (by omega)
  have e2 : u32cast a' = a' := u32cast_eq_of_lt (by omega)
  have hb1 : u32cast a = b.1 := congrArg Prod.fst (Option.some_inj.1 hb)
  have hb2 : u32cast a' = b.1 := congrArg Prod.fst (Option.some_inj.1 hb')
  omega

/-- Multiplicity of the range `x` in the list `l` (number of entries equal
to `x`). -/
def multCount (x : Nat × Nat) (l : List (Nat × Nat)) : Nat :=
  l.countP fun y => decide (y = x)

theorem multCount_eq_zero {x : Nat × Nat} {l : List (Nat × Nat)}
    (h : x ∉ l) : multCount x l = 0 := by
  rw [multCount, List.countP_eq_zero]
  intro y hy
  simp only [decide_eq_true_eq]
  rintro rfl
  exact h hy

theorem multCount_eq_one {x : Nat × Nat} :
    ∀ {l : List (Nat × Nat)}, l.Nodup → x ∈ l → multCount x l = 1 := by
  intro l
  induction l with
  | nil => intro _ h; exact absurd h (by simp)
  | cons y ys ih =>
    intro hnd hmem
    have hys := List.nodup_cons.1 hnd
    rw [multCount, List.countP_cons]
    rcases List.mem_cons.1 hmem with rfl | hmem'
    · rw [if_pos (by simp), ← multCount, multCount_eq_zero hys.1]
    · rw [← multCount, ih hys.2 hmem']
      have hne : y ≠ x := fun hyx => hys.1 (hyx ▸ hmem')
      rw [if_neg (by simpa using hne)]

/-- Multiplicity of a given range among the occurrences of one secret. -/
theorem count_occurrences {seq s : List Nat} (hlen : seq.length < U32)
    (hs : s ≠ []) (i j : Nat) :
    multCount (i, j) (occurrences seq s)
      = if j = i + s.length ∧ occursAt seq s i then 1 else 0 := by
  by_cases h : j = i + s.length ∧ occursAt seq s i
  · rw [if_pos h]
    refine multCount_eq_one (occurrences_nodup hlen hs) ?_
    exact (mem_occurrences hlen).2 ⟨i, by rw [h.1], h.2⟩
  · rw [if_neg h]
    refine multCount_eq_zero fun hmem => ?_
    rcases (mem_occurrences hlen).1 hmem with ⟨idx, heq, hocc⟩
    have h1 : i = idx := congrArg Prod.fst heq
    have h2 : j = idx + s.length := congrArg Prod.snd heq
    exact h ⟨by omega, by rw [h1]; exact hocc⟩

/-- Multiplicity of a given range among all recorded private ranges: one
per secret that matches there with the right length. -/
theorem count_allOccurrences {seq : List Nat} (hlen : seq.length < U32) :
    ∀ (sub_seq : List (List Nat)), (∀ s ∈ sub_seq, s ≠ []) → ∀ i j : Nat,
      multCount (i, j) (allOccurrences seq sub_seq)
        = sub_seq.countP fun s => decide (j = i + s.length ∧ occursAt seq s i)
  | [], _, i, j => by simp [allOccurrences, multCount]
  | s :: ss, hne, i, j => by
    rw [allOccurrences, List.flatMap_cons, multCount, List.countP_append,
      ← multCount, ← multCount, List.countP_cons,
      count_occurrences hlen (hne s (List.mem_cons_self s ss)) i j]
    have ih := count_allOccurrences hlen ss
      (fun t ht => hne t (List.mem_cons_of_mem s ht)) i j
    rw [allOccurrences] at ih
    rw [ih]
    by_cases h : j = i + s.length ∧ occursAt seq s i
    · simp [h, Nat.add_comm]
    · simp [h]

/-- C5, counterexample: with `S = [2]` and secret set `K = {[1], [2]}`, the
range `[0, 0 + len([1]))` is recorded as a private range (it is the sole
entry of the private list, contributed by the other secret `[2]`), yet
`k = [1]` does not occur in `S` at offset 0 — refuting the claimed "only
if" direction. -/
theorem C5_counterexample :
    find_ranges [2] [[1], [2]] = some ([], [(0, 0 + List.length [1])]) ∧
      ¬ occursAt [2] [1] 0 := by decide

/-- C5, amended: for every sequence shorter than `2^32` and non-empty
secrets, every occurrence of a secret `k` at offset `i` is recorded as the
private range `[i, i + len(k))` (all occurrences, repeated and overlapping
ones included, each contributing its own entry: the multiplicity of the
range equals the number of secrets of length `len(k)` occurring at `i`);
conversely every recorded private range is `[a, a + len(s))` for some
secret `s` of the set occurring at offset `a` — but possibly a secret
other than `k`. -/
theorem C5_occurrence_ranges (seq : List Nat) (sub_seq : List (List Nat))
    (k : List Nat) (i : Nat) (hlen : seq.length < U32)
    (hne : ∀ s ∈ sub_seq, s ≠ []) (hk : k ∈ sub_seq)
    (pubs privs : List (Nat × Nat))
    (hfr : find_ranges seq sub_seq = some (pubs, privs)) :
    (occursAt seq k i → ((i, i + k.length) : Nat × Nat) ∈ privs) ∧
    (∀ a b : Nat, ((a, b) : Nat × Nat) ∈ privs →
      ∃ s ∈ sub_seq, b = a + s.length ∧ occursAt seq s a) ∧
    multCount (i, i + k.length) privs
      = sub_seq.countP fun s => decide (s.length = k.length ∧ occursAt seq s i) := by
  have hpriv : privs = allOccurrences seq sub_seq := by
    have h := find_ranges_some seq hne
    rw [hfr] at h
    exact congrArg Prod.snd (Option.some_inj.1 h)
  subst hpriv
  refine ⟨?_, ?_, ?_⟩
  · intro hocc
    exact List.mem_flatMap.2 ⟨k, hk, (mem_occurrences hlen).2 ⟨i, rfl, hocc⟩⟩
  · intro a b hab
    rcases List.mem_flatMap.1 hab with ⟨s, hs, hmem⟩
    rcases (mem_occurrences hlen).1 hmem with ⟨idx, heq, hocc⟩
    have h1 : a = idx := congrArg Prod.fst heq
    have h2 : b = idx + s.length := congrArg Prod.snd heq
    exact ⟨s, hs, by omega, by rw [h1]; exact hocc⟩
  · rw [count_allOccurrences hlen sub_seq hne i (i + k.length)]
    refine List.countP_congr fun s _ => ?_
    simp only [decide_eq_true_eq]
    constructor
    · rintro ⟨h, h'⟩; exact ⟨by omega, h'⟩
    · rintro ⟨h, h'⟩; exact ⟨by omega, h'⟩

/-- C5, witness: concrete instance of the amended occurrence theorem. -/
theorem C5_witness :
    (occursAt [1, 2] [1] 0 → ((0, 0 + List.length [1]) : Nat × Nat) ∈ [((0, 1) : Nat × Nat)]) ∧
    (∀ a b : Nat, ((a, b) : Nat × Nat) ∈ [((0, 1) : Nat × Nat)] →
      ∃ s ∈ [[1]], b = a + s.length ∧ occursAt [1, 2] s a) ∧
    multCount (0, 0 + List.length [1]) [((0, 1) : Nat × Nat)]
      = List.countP (fun s => decide (s.length = List.length [1] ∧ occursAt [1, 2] s 0)) [[1]] :=
  C5_occurrence_ranges [1, 2] [[1]] [1] 0 (by decide) (by decide) (by decide)
    [(1, 2)] [(0, 1)] (by decide)

/-! ### Claim C6 -/

/-- With no occurrence of the non-empty secret `s` in `seq`, nothing is
recorded for it. -/
theorem occurrences_eq_nil {seq s : List Nat} (hs : s ≠ [])
    (h : ∀ i, ¬ occursAt seq s i) : occurrences seq s = [] := by
  rw [occurrences, List.filterMap_eq_nil_iff]
  intro idx _
  rw [if_neg]
  intro htake
  exact h idx ⟨occursAt_of_take hs htake, htake⟩

/-- C6: for non-empty secrets none of which occurs in the sequence, an
empty sequence yields no ranges at all, and a non-empty sequence yields
exactly one public range spanning the whole sequence and no private
ranges (sequences shorter than `2^32`). -/
theorem C6_edge_cases (seq : List Nat) (sub_seq : List (List Nat))
    (hlen : seq.length < U32) (hne : ∀ s ∈ sub_seq, s ≠ [])
    (hnocc : ∀ s ∈ sub_seq, ∀ i, ¬ occursAt seq s i) :
    find_ranges seq sub_seq
      = some (if seq = [] then [] else [(0, seq.length)], []) := by
  have hall : allOccurrences seq sub_seq = [] := by
    rw [allOccurrences, List.flatMap_eq_nil_iff]
    intro s hs
    exact occurrences_eq_nil (hne s hs) (hnocc s hs)
  rw [find_ranges_some seq hne, hall]
  rw [show ([] : List (Nat × Nat)).insertionSort startLE = [] from rfl, publicLoop_nil]
  rw [u32cast_eq_of_lt hlen]
  by_cases hseq : seq = []
  · subst hseq
    simp
  · rw [if_neg hseq, if_pos (List.length_pos.2 hseq)]
    simp

/-- C6, witness: `find_ranges` on the sequence `[5]` with the single
non-occurring secret `[9]`. -/
theorem C6_witness :
    find_ranges [5] [[9]]
      = some (if ([5] : List Nat) = [] then [] else [(0, List.length [5])], []) :=
  C6_edge_cases [5] [[9]] (by decide) (by decide)
    (by
      intro s hs i hocc
      rw [List.mem_singleton] at hs
      subst hs
      rcases hocc with ⟨hle, htake⟩
      have hi : i = 0 := by
        simp only [List.length_cons, List.length_nil] at hle
        omega
      subst hi
      exact absurd htake (by decide))

/-! ### Claim C8 -/

/-- Byte values of an ASCII string literal. -/
def bytes (s : String) : List Nat := s.data.map Char.toNat

/-- C8: on the transcript `b"GET /x HTTP/1.1\r\nAuthorization: secret123\r\n"`
with the single secret `b"secret123"`, `find_ranges` returns exactly one
private range `[32, 41)` — precisely the offsets of `secret123`, which
occurs at offset 32 and has length 9 — and exactly two public ranges
`[0, 32)` and `[41, 43)` where 43 is the transcript length. -/
theorem C8_scenario :
    find_ranges (bytes ("GET /x HTTP/1.1\r\nAuthorization: secret123\r\n"))
        [bytes ("secret123")]
        = some ([(0, 32), (41, 43)], [(32, 41)]) ∧
      occursAt (bytes ("GET /x HTTP/1.1\r\nAuthorization: secret123\r\n"))
        (bytes ("secret123")) 32 ∧
      32 + (bytes ("secret123")).length = 41 ∧
      (bytes ("GET /x HTTP/1.1\r\nAuthorization: secret123\r\n")).length = 43 := by
  decide

/-! ### Claim C9 -/

/-- C9: `find_ranges` returns a value exactly when every secret of the set
is non-empty; an empty secret makes the zero-width `windows(0)` call
panic, modelled as `none`. -/
theorem C9_totality (seq : List Nat) (sub_seq : List (List Nat)) :
    (find_ranges seq sub_seq).isSome = true ↔ ∀ s ∈ sub_seq, s ≠ [] := by
  by_cases h : sub_seq.any (fun s => s.isEmpty) = true
  · rw [find_ranges, if_pos h]
    simp only [Option.isSome_none, Bool.false_eq_true, false_iff]
    rcases List.any_eq_true.1 h with ⟨s, hs, hemp⟩
    intro hall
    exact hall s hs (List.isEmpty_iff.1 hemp)
  · rw [find_ranges, if_neg h]
    simp only [Option.isSome_some, true_iff]
    intro s hs hnil
    exact h (List.any_eq_true.2 ⟨s, hs, by rw [hnil]; rfl⟩)

/-! ### Claim C10 -/

/-- Below `2^32`, the per-secret occurrence collection coincides with the
exact (cast-free) one. -/
theorem occurrences_eq_occurrencesNat {seq s : List Nat}
    (hlen : seq.length < U32) :
    occurrences seq s = occurrencesNat seq s := by
  rw [occurrences, occurrencesNat]
  refine List.filterMap_congr fun idx hidx => ?_
  rw [List.mem_range] at hidx
  by_cases hc : (seq.drop idx).take s.length = s
  · rw [if_pos hc, if_pos hc, u32cast_eq_of_lt (by omega), u32cast_eq_of_lt (by omega)]
  · rw [if_neg hc, if_neg hc]

/-- Below `2^32`, the whole range-finding computation coincides with the
exact-offset one. -/
theorem find_ranges_eq_nat {seq : List Nat} {sub_seq : List (List Nat)}
    (hlen : seq.length < U32) :
    find_ranges seq sub_seq = find_rangesNat seq sub_seq := by
  rw [find_ranges, find_rangesNat]
  by_cases h : sub_seq.any (fun s => s.isEmpty) = true
  · rw [if_pos h, if_pos h]
  · rw [if_neg h, if_neg h]
    have hfun : occurrences seq = occurrencesNat seq :=
      funext fun s => occurrences_eq_occurrencesNat hlen
    rw [allOccurrences, hfun, u32cast_eq_of_lt hlen]

/-- Endpoints of every recorded occurrence range are `u32` casts of exact
byte offsets into the sequence. -/
theorem allOccurrences_endpoints {seq : List Nat} {sub_seq : List (List Nat)} :
    ∀ r ∈ allOccurrences seq sub_seq,
      (∃ n ≤ seq.length, r.1 = u32cast n) ∧ ∃ n ≤ seq.length, r.2 = u32cast n := by
  intro r hr
  rcases List.mem_flatMap.1 hr with ⟨s, hs, hmem⟩
  rcases mem_occurrences_cast.1 hmem with ⟨idx, rfl, hocc⟩
  exact ⟨⟨idx, by have := hocc.1; omega, rfl⟩, ⟨idx + s.length, hocc.1, rfl⟩⟩

/-- C10: offsets are `u32` values — for every sequence shorter than `2^32`
bytes the returned ranges carry the exact byte offsets (the computation
agrees with the cast-free one), while in general every returned range
endpoint is an exact byte offset reduced modulo `2^32` by the narrowing
casts. -/
theorem C10_u32_offsets (seq : List Nat) (sub_seq : List (List Nat)) :
    (seq.length < U32 → find_ranges seq sub_seq = find_rangesNat seq sub_seq) ∧
    (∀ pubs privs, find_ranges seq sub_seq = some (pubs, privs) →
      ∀ r ∈ pubs ++ privs,
        (∃ n ≤ seq.length, r.1 = u32cast n) ∧ ∃ n ≤ seq.length, r.2 = u32cast n) := by
  refine ⟨fun hlen => find_ranges_eq_nat hlen, ?_⟩
  intro pubs privs hfr r hr
  have hne : ∀ s ∈ sub_seq, s ≠ [] := by
    intro s hs hnil
    have hany : sub_seq.any (fun t => t.isEmpty) = true :=
      List.any_eq_true.2 ⟨s, hs, by rw [hnil]; rfl⟩
    rw [find_ranges, if_pos hany] at hfr
    exact absurd hfr (by simp)
  have h := find_ranges_some seq hne
  rw [hfr] at h
  have hp := congrArg Prod.fst (Option.some_inj.1 h)
  dsimp only at hp
  have hv : privs = allOccurrences seq sub_seq :=
    congrArg Prod.snd (Option.some_inj.1 h)
  rcases List.mem_append.1 hr with hr | hr
  · rw [hp] at hr
    rcases List.mem_append.1 hr with hr | hr
    · obtain ⟨h1, r', hr', h2⟩ := publicLoop_mem_endpoints _ 0 r hr
      have hr'priv : r' ∈ allOccurrences seq sub_seq :=
        (List.perm_insertionSort startLE _).mem_iff.1 hr'
      refine ⟨?_, ?_⟩
      · rcases h1 with h1 | ⟨r'', hr'', h1⟩
        · exact ⟨0, Nat.zero_le _, by rw [h1]; rfl⟩
        · have hr''priv : r'' ∈ allOccurrences seq sub_seq :=
            (List.perm_insertionSort startLE _).mem_iff.1 hr''
          obtain ⟨n, hn, he⟩ := (allOccurrences_endpoints r'' hr''priv).2
          exact ⟨n, hn, by rw [h1, he]⟩
      · obtain ⟨n, hn, he⟩ := (allOccurrences_endpoints r' hr'priv).1
        exact ⟨n, hn, by rw [h2, he]⟩
    · by_cases hlt :
        (publicLoop ((allOccurrences seq sub_seq).insertionSort startLE) 0).2 <
          u32cast seq.length
      · rw [if_pos hlt] at hr
        have hrval := List.mem_singleton.1 hr
        subst hrval
        refine ⟨?_, ⟨seq.length, Nat.le_refl _, rfl⟩⟩
        rcases publicLoop_final ((allOccurrences seq sub_seq).insertionSort startLE) 0
          with hf | ⟨r', hr', hf⟩
        · exact ⟨0, Nat.zero_le _, by rw [hf]; rfl⟩
        · have hr'priv : r' ∈ allOccurrences seq sub_seq :=
            (List.perm_insertionSort startLE _).mem_iff.1 hr'
          obtain ⟨n, hn, he⟩ := (allOccurrences_endpoints r' hr'priv).2
          exact ⟨n, hn, by rw [hf, he]⟩
      · rw [if_neg hlt] at hr
        exact absurd hr (by simp)
  · rw [hv] at hr
    exact allOccurrences_endpoints r hr

/-- C10, witness: on a concrete short input the computation agrees with
the exact-offset variant, and a returned endpoint is a cast offset. -/
theorem C10_witness :
    find_ranges [5] [[5]] = find_rangesNat [5] [[5]] ∧
      ∃ n ≤ (1 : Nat), (1 : Nat) = u32cast n :=
  ⟨(C10_u32_offsets [5] [[5]]).1 (by decide),
    ((C10_u32_offsets [5] [[5]]).2 [] [(0, 1)] (by decide) (0, 1) (by decide)).2⟩

/-! ### Garbling-protocol roles and error type
(`src/mpc/mpc-aio/src/protocol/garble/mod.rs`) -/

/-- Garbled-circuit phases `gc_state::{Full, Partial, Evaluated,
Compressed}` as referenced by the role traits (`mod.rs:42,50,52,60-69,77-78`). -/
inductive GcState
  | Full
  | Partial
  | Evaluated
  | Compressed
deriving DecidableEq

/-- Phase discipline of one role operation, read off the declared trait
signature: the phase index of the `GarbledCircuit` argument (if any) and
the phase index of the `GarbledCircuit` in the success result type. -/
structure RoleOp where
  argPhase : Option GcState
  resultPhase : GcState
deriving DecidableEq

/-- Signature of `Generator::generate` (`mod.rs:38-42`): takes a circuit
and a `FullInputLabelsSet` (no garbled-circuit argument) and returns
`Result<GarbledCircuit<gc_state::Full>, GCError>`. -/
def generateOp : RoleOp := ⟨none, GcState.Full⟩

/-- Signature of `Evaluator::evaluate` (`mod.rs:48-52`):
`GarbledCircuit<Partial> → Result<GarbledCircuit<Evaluated>, GCError>`. -/
def evaluateOp : RoleOp := ⟨some GcState.Partial, GcState.Evaluated⟩

/-- Signature of `Validator::validate_evaluated` (`mod.rs:58-62`):
`GarbledCircuit<Evaluated> → Result<GarbledCircuit<Evaluated>, GCError>`. -/
def validateEvaluatedOp : RoleOp := ⟨some GcState.Evaluated, GcState.Evaluated⟩

/-- Signature of `Validator::validate_compressed` (`mod.rs:65-69`):
`GarbledCircuit<Compressed> → Result<GarbledCircuit<Compressed>, GCError>`. -/
def validateCompressedOp : RoleOp := ⟨some GcState.Compressed, GcState.Compressed⟩

/-- Signature of `Compressor::compress` (`mod.rs:75-78`):
`GarbledCircuit<Evaluated> → Result<GarbledCircuit<Compressed>, GCError>`. -/
def compressOp : RoleOp := ⟨some GcState.Evaluated, GcState.Compressed⟩

/-- Modelled from the spec: `mpc_core::garble::CircuitOpening` is not under
`src/`; per §3 it is the generator's disclosed full label set, from which a
validator recomputes the expected output labels (§4.4). We carry those
recomputed expected output labels directly, as abstract label values. -/
structure CircuitOpening where
  expectedOutputLabels : List Nat
deriving DecidableEq

/-- Modelled from the spec: `mpc_core::msgs::garble::GarbleMessage` is not
under `src/`; §6 describes the channel messages as a tagged union of
circuit-transfer messages (carrying a Partial circuit's garbled tables)
and opening messages (carrying a `CircuitOpening`). -/
inductive GarbleMessage
  | GarbledCircuitMsg (tables : List Nat)
  | CircuitOpeningMsg (opening : CircuitOpening)
deriving DecidableEq

/-- Modelled from the spec: payload of `mpc_core::garble::Error` (core
errors, §7), not under `src/`. -/
structure GarbleCoreErr where
  detail : String
deriving DecidableEq

/-- Modelled from the spec: payload of `mpc_circuits::CircuitError`
(circuit errors, §7), not under `src/`. -/
structure CircuitErr where
  detail : String
deriving DecidableEq

/-- Modelled from the spec: payload of `std::io::Error` (transport
errors, §7). -/
structure IoErr where
  detail : String
deriving DecidableEq

/-- Modelled from the spec: payload of the OT adapter error
(`super::ot::OTError`, §7), not under `src/`. -/
structure OTErr where
  detail : String
deriving DecidableEq

/-- Embedding of `GCError` (`mod.rs:19-33`): the single tagged error type
of the garbling protocol, one variant per originating kind; `Unexpected`
carries the offending received message. -/
inductive GCError
  | CoreError (e : GarbleCoreErr)
  | CircuitError (e : CircuitErr)
  | IOError (e : IoErr)
  | OTError (e : OTErr)
  | Unexpected (msg : GarbleMessage)
  | BackendError (s : String)
deriving DecidableEq

/-- Error kinds named by the spec's propagation policy (§7). -/
inductive GCErrorKind
  | core
  | circuit
  | transport
  | ot
  | unexpectedMsg
  | backend
deriving DecidableEq

/-- Originating kind of a `GCError` value, one kind per variant. -/
def GCError.kind : GCError → GCErrorKind
  | .CoreError _ => .core
  | .CircuitError _ => .circuit
  | .IOError _ => .transport
  | .OTError _ => .ot
  | .Unexpected _ => .unexpectedMsg
  | .BackendError _ => .backend

/-- Offending message retained by the unexpected-message variant, when
present. -/
def GCError.unexpectedMessage : GCError → Option GarbleMessage
  | .Unexpected m => some m
  | _ => none

/-- Modelled from the spec: payload of `GarbledCircuit<gc_state::Evaluated>`
(§3: the garbled output labels produced by evaluation), not under `src/`. -/
structure EvaluatedGC where
  outputLabels : List Nat
deriving DecidableEq

/-- Modelled from the spec: the size-reduced encoding of an Evaluated
circuit's output material (§3, Compressed), an injective digest of the
output labels. -/
def labelDigest : List Nat → Nat
  | [] => 0
  | x :: xs => Nat.pair x (labelDigest xs) + 1

/-- Modelled from the spec: payload of
`GarbledCircuit<gc_state::Compressed>`, not under `src/`: the digest of
the output material. -/
structure CompressedGC where
  outputDigest : Nat
deriving DecidableEq

/-- Modelled from the spec: behaviour of `Validator::validate_evaluated`
(§4.4), whose implementation is not under `src/`: recompute the expected
output labels from the opening, compare them label-by-label with the
circuit's claimed outputs, return the same circuit on success and a
validation-mismatch core error otherwise. The declared phase discipline is
the trait's (`mod.rs:58-62`). -/
def validate_evaluated (circ : EvaluatedGC) (opening : CircuitOpening) :
    Except GCError EvaluatedGC :=
  if circ.outputLabels = opening.expectedOutputLabels then Except.ok circ
  else Except.error (GCError.CoreError ⟨"validation mismatch"⟩)

/-- Modelled from the spec: behaviour of `Compressor::compress` (§4.5),
whose implementation is not under `src/`: deterministically reduce the
Evaluated circuit's output material to its digest (`mod.rs:75-78`). -/
def compress (circ : EvaluatedGC) : CompressedGC :=
  ⟨labelDigest circ.outputLabels⟩

/-- Modelled from the spec: behaviour of `Validator::validate_compressed`
(§4.4), whose implementation is not under `src/`: same check at the
digest level — compare the stored digest with the digest of the labels
recomputed from the opening, returning the same circuit on success
(`mod.rs:65-69`). -/
def validate_compressed (circ : CompressedGC) (opening : CircuitOpening) :
    Except GCError CompressedGC :=
  if circ.outputDigest = labelDigest opening.expectedOutputLabels then Except.ok circ
  else Except.error (GCError.CoreError ⟨"validation mismatch"⟩)

theorem labelDigest_injective : Function.Injective labelDigest := by
  intro a
  induction a with
  | nil =>
    intro b hb
    cases b with
    | nil => rfl
    | cons y ys => exact absurd hb (by simp [labelDigest])
  | cons x xs ih =>
    intro b hb
    cases b with
    | nil => exact absurd hb (by simp [labelDigest])
    | cons y ys =>
      rw [labelDigest, labelDigest, Nat.add_right_cancel_iff] at hb
      obtain ⟨h1, h2⟩ := Nat.pair_eq_pair.1 hb
      rw [h1, ih h2]

/-! ### Claim C1 -/

/-- C1, counterexample: the declared result phase of `Generator::generate`
is not `Partial` — the trait signature (`mod.rs:42`) names
`GarbledCircuit<gc_state::Full>` as the success type, so the Full circuit
is exposed past the call rather than kept internal. -/
theorem C1_counterexample : generateOp.resultPhase ≠ GcState.Partial := by
  decide

/-- C1, amended: the generator's generate operation, applied to a circuit
and a full input label set, returns a garbled circuit in the Full phase;
the Full → Partial projection happens after, not inside, this call. -/
theorem C1_generate_returns_full : generateOp.resultPhase = GcState.Full := rfl

/-! ### Claim C3 -/

/-- C3: `validate_evaluated` maps Evaluated to Evaluated and
`validate_compressed` maps Compressed to Compressed (trait phase
discipline, `mod.rs:55-70`); on success each returns the very same circuit
it was given, and on a label (resp. digest) mismatch each returns an error
instead of a circuit. -/
theorem C3_validator_identity (ce : EvaluatedGC) (cc : CompressedGC)
    (op : CircuitOpening) :
    validateEvaluatedOp = ⟨some GcState.Evaluated, GcState.Evaluated⟩ ∧
    validateCompressedOp = ⟨some GcState.Compressed, GcState.Compressed⟩ ∧
    (∀ c, validate_evaluated ce op = Except.ok c → c = ce) ∧
    (∀ c, validate_compressed cc op = Except.ok c → c = cc) ∧
    (ce.outputLabels ≠ op.expectedOutputLabels →
      ∃ e, validate_evaluated ce op = Except.error e) ∧
    (cc.outputDigest ≠ labelDigest op.expectedOutputLabels →
      ∃ e, validate_compressed cc op = Except.error e) := by
  refine ⟨rfl, rfl, ?_, ?_, ?_, ?_⟩
  · intro c hc
    rw [validate_evaluated] at hc
    split_ifs at hc
    exact (Except.ok.inj hc).symm
  · intro c hc
    rw [validate_compressed] at hc
    split_ifs at hc
    exact (Except.ok.inj hc).symm
  · intro hmatch
    rw [validate_evaluated, if_neg hmatch]
    exact ⟨_, rfl⟩
  · intro hmatch
    rw [validate_compressed, if_neg hmatch]
    exact ⟨_, rfl⟩

/-- C3, witness: a concrete mismatching opening makes `validate_evaluated`
return an error. -/
theorem C3_witness :
    ∃ e, validate_evaluated ⟨[1]⟩ ⟨[]⟩ = Except.error e :=
  (C3_validator_identity ⟨[1]⟩ ⟨0⟩ ⟨[]⟩).2.2.2.2.1 (by decide)

/-! ### Claim C4 -/

/-- C4: every garbling-protocol failure kind named by the spec — core,
circuit, transport/IO, OT, unexpected-message (and the backend kind) — is
represented by a variant of the single tagged `GCError` type, and the
unexpected-message variant retains exactly the offending received message
for diagnostics (it is the only variant carrying one). -/
theorem C4_error_taxonomy :
    (∀ m : GarbleMessage,
        (GCError.Unexpected m).unexpectedMessage = some m) ∧
    (∀ k : GCErrorKind, ∃ e : GCError, e.kind = k) ∧
    (∀ e : GCError,
        e.unexpectedMessage.isSome = true ↔ e.kind = GCErrorKind.unexpectedMsg) := by
  refine ⟨fun m => rfl, ?_, ?_⟩
  · intro k
    cases k with
    | core => exact ⟨.CoreError ⟨"e"⟩, rfl⟩
    | circuit => exact ⟨.CircuitError ⟨"e"⟩, rfl⟩
    | transport => exact ⟨.IOError ⟨"e"⟩, rfl⟩
    | ot => exact ⟨.OTError ⟨"e"⟩, rfl⟩
    | unexpectedMsg => exact ⟨.Unexpected (.GarbledCircuitMsg []), rfl⟩
    | backend => exact ⟨.BackendError "e", rfl⟩
  · intro e
    cases e <;> simp [GCError.kind, GCError.unexpectedMessage]

/-! ### Claim C7 -/

/-- C7: compressing an Evaluated circuit and validating the result with an
opening succeeds exactly when validating the pre-compression circuit with
the same opening would have succeeded — compression never changes the
validation outcome. -/
theorem C7_compress_preserves_validation (circ : EvaluatedGC)
    (op : CircuitOpening) :
    (∃ c, validate_compressed (compress circ) op = Except.ok c) ↔
      ∃ c, validate_evaluated circ op = Except.ok c := by
  rw [validate_compressed, validate_evaluated, compress]
  by_cases h : circ.outputLabels = op.expectedOutputLabels
  · rw [if_pos h, if_pos (congrArg labelDigest h)]
    exact ⟨fun _ => ⟨circ, rfl⟩, fun _ => ⟨_, rfl⟩⟩
  · have hd : labelDigest circ.outputLabels ≠ labelDigest op.expectedOutputLabels :=
      fun hc => h (labelDigest_injective hc)
    rw [if_neg h, if_neg hd]
    exact ⟨fun ⟨c, hc⟩ => absurd hc (by simp), fun ⟨c, hc⟩ => absurd hc (by simp)⟩

end Tlsn
